import Mathlib

/-!
# I2C_Anything.h: raw value transfer over the Wire bus

A shallow embedding of the two templates of `I2C_Anything.h`,
`I2C_writeAnything` and `I2C_readAnything`, and the properties of their
transfer loops.

The `Wire` object is an external collaborator (the Arduino two-wire driver);
it enters the embedding as a parameter: a `Sink` for `Wire.write(uint8_t)` and
a `Source` for `Wire.read()`, each over an arbitrary driver state.
-/

namespace I2CAnything

/-! ## Machine types -/

/-- Arduino `byte` (`uint8_t`). -/
abbrev byte := Fin 256

/-- Largest `unsigned int` of the target (32-bit ARM Teensy). -/
def UINT_MAX : Nat := 4294967295

/-- Largest `size_t` of the target; `size_t` and `unsigned int` have the same width. -/
def SIZE_MAX : Nat := 4294967295

/-- Conversion of the `int` returned by `Wire.read()` to `byte` in the store
`*p++ = Wire.read()`: reduction modulo 256. -/
def byteOfInt (x : Int) : byte := ⟨(x % 256).toNat, by omega⟩

/-- Integral promotion of a `byte` to `int`. -/
def intOfByte (b : byte) : Int := (b.val : Int)

/-- The template parameter `T`, of which the routines use `sizeof` only; `sizeof`
yields a `size_t`. -/
structure CType where
  sizeof : Nat
  sizeof_le : sizeof ≤ SIZE_MAX

/-- Object representation of a value of type `T`: its `sizeof(T)` bytes in
memory order, as seen through `(byte*) &value`. -/
structure Value (T : CType) where
  bytes : List byte
  length_eq : bytes.length = T.sizeof

/-- Read `*p` where `p` is `(const byte*) &value` advanced by `p` bytes; reading
outside the object is undefined (`none`). -/
def Value.load {T : CType} (v : Value T) (p : Nat) : Option byte := v.bytes[p]?

/-- Store `*p = b` where `p` is `(byte*) &value` advanced by `p` bytes; storing
outside the object is undefined (`none`). -/
def Value.store {T : CType} (v : Value T) (p : Nat) (b : byte) : Option (Value T) :=
  if p < T.sizeof then some ⟨v.bytes.set p b, by simp [v.length_eq]⟩ else none

/-! ## The bus driver -/

/-- The byte sink `Wire.write(uint8_t)`: given the driver state and a byte,
the `size_t` it returns (the number of bytes accepted) and the next state. -/
structure Sink (σ : Type) where
  write : σ → byte → Nat × σ

/-- The byte source `Wire.read()`: given the driver state, the `int` it returns
and the next state. -/
structure Source (σ : Type) where
  read : σ → Int × σ

/-! ## The routines -/

/-- The loop `for (i = 0; i < sizeof value; i++) Wire.write(*p++);` from the
state `i`, `p` (offset of the pointer from `&value`), `wire`. The value
returned by `Wire.write` is discarded. -/
def I2C_writeAnything.loop {σ : Type} (S : Sink σ) {T : CType} (value : Value T)
    (i p : Nat) (wire : σ) : Option (Nat × σ) :=
  if i < T.sizeof then
    match value.load p with
    | none => none
    | some b =>
      I2C_writeAnything.loop S value ((i + 1) % (UINT_MAX + 1)) (p + 1) (S.write wire b).2
  else some (i, wire)
termination_by T.sizeof - i
decreasing_by
  have h1 := T.sizeof_le
  have h2 : (i + 1) % (UINT_MAX + 1) = i + 1 := by
    apply Nat.mod_eq_of_lt
    simp only [UINT_MAX, SIZE_MAX] at *
    omega
  rw [h2]
  omega

/-- `template <typename T> unsigned int I2C_writeAnything (const T& value)`:
the returned `i` and the driver state afterwards. -/
def I2C_writeAnything {σ : Type} (S : Sink σ) {T : CType} (value : Value T) (wire : σ) :
    Option (Nat × σ) :=
  I2C_writeAnything.loop S value 0 0 wire

/-- The loop `for (i = 0; i < sizeof value; i++) *p++ = Wire.read();` from the
state `i`, `p` (offset of the pointer from `&value`), `value`, `wire`. -/
def I2C_readAnything.loop {σ : Type} (S : Source σ) {T : CType} (value : Value T)
    (i p : Nat) (wire : σ) : Option (Nat × Value T × σ) :=
  if i < T.sizeof then
    match value.store p (byteOfInt (S.read wire).1) with
    | none => none
    | some value1 =>
      I2C_readAnything.loop S value1 ((i + 1) % (UINT_MAX + 1)) (p + 1) (S.read wire).2
  else some (i, value, wire)
termination_by T.sizeof - i
decreasing_by
  have h1 := T.sizeof_le
  have h2 : (i + 1) % (UINT_MAX + 1) = i + 1 := by
    apply Nat.mod_eq_of_lt
    simp only [UINT_MAX, SIZE_MAX] at *
    omega
  rw [h2]
  omega

/-- `template <typename T> unsigned int I2C_readAnything(T& value)`: the
returned `i`, the value afterwards and the driver state afterwards. -/
def I2C_readAnything {σ : Type} (S : Source σ) {T : CType} (value : Value T) (wire : σ) :
    Option (Nat × Value T × σ) :=
  I2C_readAnything.loop S value 0 0 wire

/-! ## Drivers and observers -/

/-- What an observer of a sink has seen: the argument of every `Wire.write` call,
in call order, and the sum of the counts those calls returned. -/
structure WriteLog where
  calls : List byte
  accepted : Nat
deriving DecidableEq

/-- A sink under observation: it behaves as `S` and logs every call. -/
def spySink {σ : Type} (S : Sink σ) : Sink (σ × WriteLog) where
  write := fun s b =>
    ((S.write s.1 b).1,
      ((S.write s.1 b).2, ⟨s.2.calls ++ [b], s.2.accepted + (S.write s.1 b).1⟩))

/-- A sink with room for `K` bytes, as the transmit buffer of `Wire`: a write
is accepted (returns 1, the byte is queued) while fewer than `K` bytes are
queued and rejected (returns 0, nothing queued) afterwards. -/
def boundedSink (K : Nat) : Sink (List byte) where
  write := fun buf b => if buf.length < K then (1, buf ++ [b]) else (0, buf)

/-- A sink that accepts every byte and queues it. -/
def acceptAllSink : Sink (List byte) where
  write := fun buf b => (1, buf ++ [b])

/-- A source over a queue of received bytes, as the receive buffer of `Wire`:
a read returns the next byte and removes it, or returns -1 and changes
nothing when the queue is empty. -/
def bufferSource : Source (List byte) where
  read := fun buf =>
    match buf with
    | [] => (-1, [])
    | b :: rest => (intOfByte b, rest)

/-- A source under observation: it behaves as `S` and logs what every
`Wire.read` call returned, in call order. -/
def spySource {σ : Type} (S : Source σ) : Source (σ × List Int) where
  read := fun s => ((S.read s.1).1, ((S.read s.1).2, s.2 ++ [(S.read s.1).1]))

/-- What `n` successive `Wire.read` calls return from state `wire`, and the
state after them. -/
def Source.readN {σ : Type} (S : Source σ) : Nat → σ → List Int × σ
  | 0, wire => ([], wire)
  | n + 1, wire =>
    ((S.read wire).1 :: (S.readN n (S.read wire).2).1, (S.readN n (S.read wire).2).2)

/-- The driver state after `Wire.write` has been called on each byte of `bs` in order. -/
def Sink.writeAll {σ : Type} (S : Sink σ) (bs : List byte) (wire : σ) : σ :=
  bs.foldl (fun w b => (S.write w b).2) wire

/-- What the successive `Wire.write` calls on the bytes of `bs` return, in call order. -/
def Sink.returns {σ : Type} (S : Sink σ) : List byte → σ → List Nat
  | [], _ => []
  | b :: bs, wire => (S.write wire b).1 :: S.returns bs (S.write wire b).2

/-! ## A four-byte integer on a little-endian target -/

/-- A four-byte integer type (`uint32_t`, `long`, `int` on the Teensy). -/
def uint32_t : CType := ⟨4, by unfold SIZE_MAX; omega⟩

/-- A one-byte type (`byte`, `char`). -/
def uint8_t : CType := ⟨1, by unfold SIZE_MAX; omega⟩

/-- A two-byte integer type (`uint16_t`, `short`). -/
def uint16_t : CType := ⟨2, by unfold SIZE_MAX; omega⟩

/-- A type without any byte, the boundary `sizeof value == 0`. -/
def emptyType : CType := ⟨0, by unfold SIZE_MAX; omega⟩

/-- The log of an observer that has seen no call yet. -/
def WriteLog.empty : WriteLog := ⟨[], 0⟩

/-- Little-endian object representation of a four-byte integer. -/
def bytesOfUInt32 (x : Nat) : Value uint32_t :=
  ⟨[Fin.ofNat x, Fin.ofNat (x / 256), Fin.ofNat (x / 65536), Fin.ofNat (x / 16777216)], rfl⟩

/-- The integer a little-endian object representation stands for. -/
def uintOfBytes {T : CType} (v : Value T) : Nat :=
  v.bytes.foldr (fun b acc => b.val + 256 * acc) 0

/-! ## The transfer loops, characterised -/

theorem list_take_succ_set {α : Type} (l : List α) (i : Nat) (b : α) (h : i < l.length) :
    (l.set i b).take (i + 1) = l.take i ++ [b] := by
  induction l generalizing i with
  | nil => simp at h
  | cons a t ih =>
    cases i with
    | zero => simp
    | succ j =>
      simp only [List.length_cons, Nat.add_lt_add_iff_right] at h
      simp [ih j h]

theorem uint_succ_mod {T : CType} {i : Nat} (h : i < T.sizeof) :
    (i + 1) % (UINT_MAX + 1) = i + 1 := by
  have h1 := T.sizeof_le
  apply Nat.mod_eq_of_lt
  simp only [UINT_MAX, SIZE_MAX] at *
  omega

/-- From a state with `p = i`, the write loop runs to `i = sizeof value`, having
called `Wire.write` on the bytes at offsets `i`, `i + 1`, ... in order. -/
theorem writeLoop_eq {σ : Type} (S : Sink σ) {T : CType} (value : Value T) :
    ∀ (k i : Nat) (wire : σ), i + k = T.sizeof →
      I2C_writeAnything.loop S value i i wire
        = some (T.sizeof, S.writeAll (value.bytes.drop i) wire) := by
  intro k
  induction k with
  | zero =>
    intro i wire h
    rw [I2C_writeAnything.loop]
    have hi : i = T.sizeof := by omega
    have hd : value.bytes.drop i = [] := by
      apply List.drop_eq_nil_of_le
      rw [value.length_eq]; omega
    rw [if_neg (by omega), hd, hi]
    rfl
  | succ k ih =>
    intro i wire h
    have hi : i < T.sizeof := by omega
    have hl : i < value.bytes.length := by rw [value.length_eq]; exact hi
    rw [I2C_writeAnything.loop]
    have hload : value.load i = some value.bytes[i] := by
      simp [Value.load, List.getElem?_eq_getElem hl]
    have hdrop : value.bytes.drop i = value.bytes[i] :: value.bytes.drop (i + 1) :=
      List.drop_eq_getElem_cons hl
    rw [if_pos hi, hload, uint_succ_mod hi]
    simp only
    rw [ih (i + 1) _ (by omega), hdrop]
    rfl

theorem writeAnything_eq {σ : Type} (S : Sink σ) {T : CType} (value : Value T) (wire : σ) :
    I2C_writeAnything S value wire = some (T.sizeof, S.writeAll value.bytes wire) := by
  unfold I2C_writeAnything
  rw [writeLoop_eq S value T.sizeof 0 wire (by omega)]
  simp

theorem Value.ext_bytes {T : CType} {v w : Value T} (h : v.bytes = w.bytes) : v = w := by
  cases v; cases w; cases h; rfl

theorem readN_length {σ : Type} (S : Source σ) :
    ∀ (n : Nat) (wire : σ), (S.readN n wire).1.length = n := by
  intro n
  induction n with
  | zero => intro wire; rfl
  | succ n ih => intro wire; simp [Source.readN, ih]

/-- From a state with `p = i`, the read loop runs to `i = sizeof value`, having
stored what the successive `Wire.read` calls returned at offsets `i`, `i + 1`, ... -/
theorem readLoop_eq {σ : Type} (S : Source σ) {T : CType} :
    ∀ (k i : Nat) (value : Value T) (wire : σ), i + k = T.sizeof →
      ∃ value1 : Value T,
        I2C_readAnything.loop S value i i wire = some (T.sizeof, value1, (S.readN k wire).2)
        ∧ value1.bytes = value.bytes.take i ++ (S.readN k wire).1.map byteOfInt := by
  intro k
  induction k with
  | zero =>
    intro i value wire h
    refine ⟨value, ?_, ?_⟩
    · rw [I2C_readAnything.loop]
      have hi : i = T.sizeof := by omega
      rw [if_neg (by omega), hi]
      rfl
    · have ht : value.bytes.take i = value.bytes := by
        apply List.take_of_length_le
        rw [value.length_eq]; omega
      simp [Source.readN, ht]
  | succ k ih =>
    intro i value wire h
    have hi : i < T.sizeof := by omega
    have hl : i < value.bytes.length := by rw [value.length_eq]; exact hi
    obtain ⟨value1, h1, h2⟩ :=
      ih (i + 1) ⟨value.bytes.set i (byteOfInt (S.read wire).1), by simp [value.length_eq]⟩
        (S.read wire).2 (by omega)
    refine ⟨value1, ?_, ?_⟩
    · rw [I2C_readAnything.loop]
      rw [if_pos hi, uint_succ_mod hi]
      simp only [Value.store, if_pos hi]
      rw [h1]
      rfl
    · rw [h2]
      simp only [list_take_succ_set _ _ _ hl, Source.readN, List.map_cons, List.append_assoc,
        List.singleton_append]

theorem readAnything_eq {σ : Type} (S : Source σ) {T : CType} (value : Value T) (wire : σ) :
    I2C_readAnything S value wire
      = some (T.sizeof,
          ⟨(S.readN T.sizeof wire).1.map byteOfInt, by simp [readN_length]⟩,
          (S.readN T.sizeof wire).2) := by
  obtain ⟨value1, h1, h2⟩ := readLoop_eq S T.sizeof 0 value wire (by omega)
  unfold I2C_readAnything
  rw [h1]
  have : value1 = ⟨(S.readN T.sizeof wire).1.map byteOfInt, by simp [readN_length]⟩ := by
    apply Value.ext_bytes
    simpa using h2
  rw [this]

theorem byteOfInt_intOfByte (b : byte) : byteOfInt (intOfByte b) = b := by
  apply Fin.ext
  have hb := b.isLt
  simp only [byteOfInt, intOfByte]
  omega

theorem map_byteOfInt_intOfByte (bs : List byte) : (bs.map intOfByte).map byteOfInt = bs := by
  induction bs with
  | nil => rfl
  | cons b t ih => simp [byteOfInt_intOfByte, ih]

theorem spySink_writeAll {σ : Type} (S : Sink σ) :
    ∀ (bs : List byte) (wire : σ) (log : WriteLog),
      (spySink S).writeAll bs (wire, log)
        = (S.writeAll bs wire, ⟨log.calls ++ bs, log.accepted + (S.returns bs wire).sum⟩) := by
  intro bs
  induction bs with
  | nil => intro wire log; simp [Sink.writeAll, Sink.returns]
  | cons b t ih =>
    intro wire log
    have h := ih (S.write wire b).2 ⟨log.calls ++ [b], log.accepted + (S.write wire b).1⟩
    simp only [Sink.writeAll, List.foldl_cons] at h ⊢
    simp only [spySink] at h ⊢
    rw [h]
    simp [Sink.returns, Nat.add_assoc]

theorem returns_length {σ : Type} (S : Sink σ) :
    ∀ (bs : List byte) (wire : σ), (S.returns bs wire).length = bs.length := by
  intro bs
  induction bs with
  | nil => intro wire; rfl
  | cons b t ih => intro wire; simp [Sink.returns, ih]

theorem returns_sum_le {σ : Type} (S : Sink σ) (h01 : ∀ w b, (S.write w b).1 ≤ 1) :
    ∀ (bs : List byte) (wire : σ), (S.returns bs wire).sum ≤ bs.length := by
  intro bs
  induction bs with
  | nil => intro wire; simp [Sink.returns]
  | cons b t ih =>
    intro wire
    have h1 := h01 wire b
    have h2 := ih (S.write wire b).2
    simp only [Sink.returns, List.sum_cons, List.length_cons]
    omega

theorem returns_sum_eq {σ : Type} (S : Sink σ) (hacc : ∀ w b, (S.write w b).1 = 1) :
    ∀ (bs : List byte) (wire : σ), (S.returns bs wire).sum = bs.length := by
  intro bs
  induction bs with
  | nil => intro wire; simp [Sink.returns]
  | cons b t ih =>
    intro wire
    have h1 := hacc wire b
    have h2 := ih (S.write wire b).2
    simp only [Sink.returns, List.sum_cons, List.length_cons]
    omega

theorem spySource_readN {σ : Type} (S : Source σ) :
    ∀ (n : Nat) (wire : σ) (log : List Int),
      (spySource S).readN n (wire, log)
        = ((S.readN n wire).1, ((S.readN n wire).2, log ++ (S.readN n wire).1)) := by
  intro n
  induction n with
  | zero => intro wire log; simp [Source.readN]
  | succ n ih =>
    intro wire log
    have h := ih (S.read wire).2 (log ++ [(S.read wire).1])
    simp only [Source.readN, spySource] at h ⊢
    rw [h]
    simp

theorem bufferSource_read_cons (b : byte) (t : List byte) :
    bufferSource.read (b :: t) = (intOfByte b, t) := rfl

theorem bufferSource_read_nil : bufferSource.read [] = (-1, []) := rfl

theorem bufferSource_readN :
    ∀ (n : Nat) (s : List byte), n ≤ s.length →
      bufferSource.readN n s = ((s.take n).map intOfByte, s.drop n) := by
  intro n
  induction n with
  | zero => intro s _; simp [Source.readN]
  | succ n ih =>
    intro s h
    cases s with
    | nil => simp at h
    | cons b t =>
      simp only [List.length_cons, Nat.add_le_add_iff_right] at h
      simp [Source.readN, bufferSource_read_cons, ih t h]

theorem bufferSource_readN_bytes (n : Nat) (s : List byte) (h : n ≤ s.length) :
    (bufferSource.readN n s).1.map byteOfInt = s.take n := by
  rw [bufferSource_readN n s h]
  exact map_byteOfInt_intOfByte _

theorem bufferSource_readN_nil :
    ∀ (n : Nat), bufferSource.readN n [] = (List.replicate n (-1), []) := by
  intro n
  induction n with
  | zero => rfl
  | succ n ih => simp [Source.readN, bufferSource_read_nil, ih, List.replicate_succ]

theorem boundedSink_writeAll (K : Nat) :
    ∀ (bs buf : List byte),
      (boundedSink K).writeAll bs buf = buf ++ bs.take (K - buf.length) := by
  intro bs
  induction bs with
  | nil => intro buf; simp [Sink.writeAll]
  | cons b t ih =>
    intro buf
    simp only [Sink.writeAll, List.foldl_cons] at ih ⊢
    by_cases h : buf.length < K
    · simp only [boundedSink, if_pos h] at ih ⊢
      rw [ih]
      have : K - buf.length = (K - (buf ++ [b]).length) + 1 := by
        simp only [List.length_append, List.length_singleton]; omega
      rw [this]
      simp
    · simp only [boundedSink, if_neg h] at ih ⊢
      rw [ih]
      have : K - buf.length = 0 := by omega
      simp [this]

theorem boundedSink_returns_sum (K : Nat) :
    ∀ (bs buf : List byte),
      ((boundedSink K).returns bs buf).sum = min (K - buf.length) bs.length := by
  intro bs
  induction bs with
  | nil => intro buf; simp [Sink.returns]
  | cons b t ih =>
    intro buf
    by_cases h : buf.length < K
    · simp only [Sink.returns, boundedSink, if_pos h, List.sum_cons, List.length_cons]
      have := ih (buf ++ [b])
      simp only [boundedSink] at this
      rw [this]
      simp only [List.length_append, List.length_singleton]
      omega
    · simp only [Sink.returns, boundedSink, if_neg h, List.sum_cons, List.length_cons]
      have := ih buf
      simp only [boundedSink] at this
      rw [this]
      omega

theorem boundedSink_zero_one (K : Nat) (w : List byte) (b : byte) :
    ((boundedSink K).write w b).1 = 0 ∨ ((boundedSink K).write w b).1 = 1 := by
  simp only [boundedSink]
  split
  · exact Or.inr rfl
  · exact Or.inl rfl

theorem acceptAllSink_writeAll :
    ∀ (bs buf : List byte), acceptAllSink.writeAll bs buf = buf ++ bs := by
  intro bs
  induction bs with
  | nil => intro buf; simp [Sink.writeAll]
  | cons b t ih =>
    intro buf
    simp only [Sink.writeAll, List.foldl_cons] at ih ⊢
    simp only [acceptAllSink] at ih ⊢
    rw [ih]
    simp

theorem spy_writeAnything_eq {σ : Type} (S : Sink σ) {T : CType} (value : Value T) (wire : σ) :
    I2C_writeAnything (spySink S) value (wire, WriteLog.empty)
      = some (T.sizeof,
          (S.writeAll value.bytes wire, ⟨value.bytes, (S.returns value.bytes wire).sum⟩)) := by
  rw [writeAnything_eq, spySink_writeAll]
  simp [WriteLog.empty]

/-! ## Writing -/

/-- Claim C4. For every value and every sink, whatever its writes return,
`I2C_writeAnything` makes exactly `sizeof value` calls of `Wire.write`, the
`k`-th of them on the `k`-th byte of the value: the sequence of bytes handed
to the sink is the byte sequence of the value. Observing the sink changes
neither the returned count nor the driver state. -/
theorem C4_write_calls_are_value_bytes {σ : Type} (S : Sink σ) {T : CType} (value : Value T)
    (wire : σ) :
    ∃ (r : Nat) (wire1 : σ) (log : WriteLog),
      I2C_writeAnything (spySink S) value (wire, WriteLog.empty) = some (r, (wire1, log))
      ∧ log.calls.length = T.sizeof
      ∧ (∀ k, log.calls[k]? = value.load k)
      ∧ log.calls = value.bytes
      ∧ I2C_writeAnything S value wire = some (r, wire1) := by
  refine ⟨_, _, _, spy_writeAnything_eq S value wire, ?_, ?_, rfl, writeAnything_eq S value wire⟩
  · exact value.length_eq
  · intro k
    rfl

/-- Claim C5. Against a sink whose single-byte write always accepts (returns 1),
`I2C_writeAnything` returns exactly `sizeof value`, which is then also the
number of bytes the sink accepted. -/
theorem C5_write_returns_sizeof_when_accepting {σ : Type} (S : Sink σ)
    (hacc : ∀ w b, (S.write w b).1 = 1) {T : CType} (value : Value T) (wire : σ) :
    (I2C_writeAnything S value wire).map Prod.fst = some T.sizeof
    ∧ (I2C_writeAnything (spySink S) value (wire, WriteLog.empty)).map
        (fun r => (r.1, r.2.2.accepted)) = some (T.sizeof, T.sizeof) := by
  rw [writeAnything_eq, spy_writeAnything_eq]
  simp [returns_sum_eq S hacc, value.length_eq]

theorem C5_write_returns_sizeof_when_accepting_witness :
    (∀ w b, (acceptAllSink.write w b).1 = 1)
    ∧ (I2C_writeAnything acceptAllSink (bytesOfUInt32 7) [9]).map Prod.fst = some uint32_t.sizeof
    ∧ (I2C_writeAnything (spySink acceptAllSink) (bytesOfUInt32 7) ([9], WriteLog.empty)).map
        (fun r => (r.1, r.2.2.accepted)) = some (uint32_t.sizeof, uint32_t.sizeof) :=
  ⟨fun _ _ => rfl,
    C5_write_returns_sizeof_when_accepting acceptAllSink (fun _ _ => rfl) (bytesOfUInt32 7) [9]⟩

/-- Claim C1, as stated, fails: a two-byte value written to a sink that accepts
one byte and rejects the next. The sink accepted 1 byte (it holds `0x34` only)
and `I2C_writeAnything` returns 2, not 1. -/
theorem C1_short_sink_counterexample :
    1 < uint16_t.sizeof
    ∧ I2C_writeAnything (spySink (boundedSink 1)) (⟨[0x34, 0x12], rfl⟩ : Value uint16_t)
        ([], WriteLog.empty) = some (2, ([0x34], ⟨[0x34, 0x12], 1⟩))
    ∧ (I2C_writeAnything (boundedSink 1) (⟨[0x34, 0x12], rfl⟩ : Value uint16_t) []).map Prod.fst
        ≠ some 1 := by
  refine ⟨by decide, ?_, ?_⟩
  · rw [spy_writeAnything_eq]
    decide
  · rw [writeAnything_eq]
    decide

/-- Claim C1, amended. Against a sink that accepts the first `K` bytes and rejects
every later one, with `K < sizeof value`, `I2C_writeAnything` still makes
`sizeof value` write calls and returns `sizeof value`, the number of bytes
handed to the sink; the sink accepted `K` bytes, the first `K` bytes of the
value, and the remaining bytes are lost. -/
theorem C1_short_sink_returns_sizeof {T : CType} (value : Value T) (K : Nat)
    (hK : K < T.sizeof) :
    I2C_writeAnything (spySink (boundedSink K)) value ([], WriteLog.empty)
      = some (T.sizeof, (value.bytes.take K, ⟨value.bytes, K⟩)) := by
  rw [spy_writeAnything_eq, boundedSink_writeAll, boundedSink_returns_sum]
  have h : min (K - ([] : List byte).length) value.bytes.length = K := by
    rw [value.length_eq]
    simp only [List.length_nil]
    omega
  rw [h]
  simp

theorem C1_short_sink_returns_sizeof_witness :
    3 < uint32_t.sizeof
    ∧ I2C_writeAnything (spySink (boundedSink 3)) (bytesOfUInt32 0x01020304) ([], WriteLog.empty)
      = some (uint32_t.sizeof,
          ((bytesOfUInt32 0x01020304).bytes.take 3, ⟨(bytesOfUInt32 0x01020304).bytes, 3⟩)) :=
  ⟨by decide, C1_short_sink_returns_sizeof (bytesOfUInt32 0x01020304) 3 (by decide)⟩

/-- Claim C2, as stated, fails: a four-byte value written to a sink that rejects
every byte (each write returns 0). `I2C_writeAnything` returns 4, the size of
the value, although the sink accepted 0 of its bytes. -/
theorem C2_full_count_without_transfer_counterexample :
    (∀ w b, ((boundedSink 0).write w b).1 = 0 ∨ ((boundedSink 0).write w b).1 = 1)
    ∧ (I2C_writeAnything (spySink (boundedSink 0)) (bytesOfUInt32 0x01020304)
        ([], WriteLog.empty)).map (fun r => (r.1, r.2.2.accepted)) = some (uint32_t.sizeof, 0)
    ∧ 0 < uint32_t.sizeof := by
  refine ⟨fun _ _ => Or.inl rfl, ?_, by decide⟩
  rw [spy_writeAnything_eq]
  decide

/-- Claim C2, amended. For every value and every sink whose single-byte write
returns 0 or 1, `I2C_writeAnything` returns `sizeof value` whatever the sink
accepted, and the number of bytes the sink accepted is at most that returned
count: a sink that accepted all bytes gives the count `sizeof value`, and so
does a sink that accepted fewer. -/
theorem C2_returned_count_bounds_accepted {σ : Type} (S : Sink σ)
    (h01 : ∀ w b, (S.write w b).1 = 0 ∨ (S.write w b).1 = 1) {T : CType} (value : Value T)
    (wire : σ) :
    ∃ (wire1 : σ) (log : WriteLog),
      I2C_writeAnything (spySink S) value (wire, WriteLog.empty)
        = some (T.sizeof, (wire1, log))
      ∧ log.accepted ≤ T.sizeof := by
  refine ⟨_, _, spy_writeAnything_eq S value wire, ?_⟩
  have h := returns_sum_le S (fun w b => by rcases h01 w b with h | h <;> omega) value.bytes wire
  rw [value.length_eq] at h
  exact h

theorem C2_returned_count_bounds_accepted_witness :
    (∀ w b, ((boundedSink 1).write w b).1 = 0 ∨ ((boundedSink 1).write w b).1 = 1)
    ∧ ∃ (wire1 : List byte) (log : WriteLog),
      I2C_writeAnything (spySink (boundedSink 1)) (bytesOfUInt32 5) ([], WriteLog.empty)
        = some (uint32_t.sizeof, (wire1, log))
      ∧ log.accepted ≤ uint32_t.sizeof :=
  ⟨boundedSink_zero_one 1,
    C2_returned_count_bounds_accepted (boundedSink 1) (boundedSink_zero_one 1)
      (bytesOfUInt32 5) []⟩

/-! ## Reading -/

theorem spy_readAnything_eq {σ : Type} (S : Source σ) {T : CType} (value : Value T) (wire : σ) :
    I2C_readAnything (spySource S) value (wire, [])
      = some (T.sizeof,
          ⟨(S.readN T.sizeof wire).1.map byteOfInt, by simp [readN_length]⟩,
          ((S.readN T.sizeof wire).2, (S.readN T.sizeof wire).1)) := by
  rw [readAnything_eq]
  simp [spySource_readN]

/-- Claim C6. When the first `sizeof value` reads of the source yield the bytes
`bs`, `I2C_readAnything` returns with the `k`-th byte of the value equal to the
`k`-th byte of `bs` for every `k`, whatever the value held before: a run from
any other initial value over the same source ends in the same result. -/
theorem C6_read_overwrites_in_order {σ : Type} (S : Source σ) {T : CType} (value : Value T)
    (wire : σ) (bs : List byte) (hbs : (S.readN T.sizeof wire).1 = bs.map intOfByte) :
    ∃ (value1 : Value T) (wire1 : σ),
      I2C_readAnything S value wire = some (T.sizeof, value1, wire1)
      ∧ value1.bytes = bs
      ∧ (∀ k, value1.load k = bs[k]?)
      ∧ ∀ other : Value T, I2C_readAnything S other wire = I2C_readAnything S value wire := by
  have hb : (S.readN T.sizeof wire).1.map byteOfInt = bs := by
    rw [hbs, map_byteOfInt_intOfByte]
  refine ⟨_, _, readAnything_eq S value wire, hb, ?_, ?_⟩
  · intro k
    simp only [Value.load, hb]
  · intro other
    rw [readAnything_eq, readAnything_eq]

theorem C6_read_overwrites_in_order_witness :
    (bufferSource.readN uint16_t.sizeof [0xCD, 0xAB, 0x77]).1 = [0xCD, 0xAB].map intOfByte
    ∧ ∃ (value1 : Value uint16_t) (wire1 : List byte),
      I2C_readAnything bufferSource (⟨[0x11, 0x22], rfl⟩ : Value uint16_t) [0xCD, 0xAB, 0x77]
        = some (uint16_t.sizeof, value1, wire1)
      ∧ value1.bytes = [0xCD, 0xAB]
      ∧ (∀ k, value1.load k = ([0xCD, 0xAB] : List byte)[k]?)
      ∧ ∀ other : Value uint16_t,
          I2C_readAnything bufferSource other [0xCD, 0xAB, 0x77]
            = I2C_readAnything bufferSource (⟨[0x11, 0x22], rfl⟩ : Value uint16_t)
                [0xCD, 0xAB, 0x77] :=
  ⟨by decide,
    C6_read_overwrites_in_order bufferSource (⟨[0x11, 0x22], rfl⟩ : Value uint16_t)
      [0xCD, 0xAB, 0x77] [0xCD, 0xAB] (by decide)⟩

/-- Claim C7. `I2C_readAnything` returns `sizeof value` for every value, every
source and every source state; in particular from a source without data, whose
reads return the sentinel -1, it returns `sizeof value` as well (each byte of
the value then holds 0xFF), so the returned count is the same for a source that
supplied every byte and for one that ran out. -/
theorem C7_read_always_returns_sizeof {σ : Type} (S : Source σ) {T : CType} (value : Value T)
    (wire : σ) :
    (I2C_readAnything S value wire).map Prod.fst = some T.sizeof
    ∧ (bufferSource.read []).1 = -1
    ∧ (I2C_readAnything bufferSource value []).map (fun r => (r.1, r.2.1.bytes))
        = some (T.sizeof, List.replicate T.sizeof 255)
    ∧ (I2C_readAnything bufferSource value []).map Prod.fst
        = (I2C_readAnything S value wire).map Prod.fst := by
  have h255 : byteOfInt (-1) = 255 := by decide
  refine ⟨?_, rfl, ?_, ?_⟩
  · rw [readAnything_eq]; rfl
  · rw [readAnything_eq]
    simp [bufferSource_readN_nil, h255]
  · rw [readAnything_eq, readAnything_eq]; rfl

/-- Claim C8. From a source holding the byte sequence `s` with at least
`sizeof value` bytes, `I2C_readAnything` makes exactly `sizeof value` calls of
`Wire.read`; afterwards the source holds `s` without its first `sizeof value`
bytes, and the value holds those first bytes. -/
theorem C8_read_consumes_sizeof_bytes {T : CType} (value : Value T) (s : List byte)
    (hs : T.sizeof ≤ s.length) :
    ∃ (value1 : Value T) (log : List Int),
      I2C_readAnything (spySource bufferSource) value (s, [])
        = some (T.sizeof, value1, (s.drop T.sizeof, log))
      ∧ log.length = T.sizeof
      ∧ log = (s.take T.sizeof).map intOfByte
      ∧ value1.bytes = s.take T.sizeof
      ∧ (I2C_readAnything bufferSource value s).map (fun r => r.2.2) = some (s.drop T.sizeof) := by
  have hN := bufferSource_readN T.sizeof s hs
  refine ⟨⟨s.take T.sizeof, by simp [hs]⟩, (s.take T.sizeof).map intOfByte, ?_, ?_, rfl, rfl, ?_⟩
  · rw [spy_readAnything_eq]
    have hv : (⟨(bufferSource.readN T.sizeof s).1.map byteOfInt,
        by simp [readN_length]⟩ : Value T) = ⟨s.take T.sizeof, by simp [hs]⟩ :=
      Value.ext_bytes (bufferSource_readN_bytes T.sizeof s hs)
    rw [hv, hN]
  · simp [hs]
  · rw [readAnything_eq]
    simp only [Option.map_some', hN]

theorem C8_read_consumes_sizeof_bytes_witness :
    uint16_t.sizeof ≤ ([1, 2, 3] : List byte).length
    ∧ ∃ (value1 : Value uint16_t) (log : List Int),
      I2C_readAnything (spySource bufferSource) (⟨[0, 0], rfl⟩ : Value uint16_t) ([1, 2, 3], [])
        = some (uint16_t.sizeof, value1, (([1, 2, 3] : List byte).drop uint16_t.sizeof, log))
      ∧ log.length = uint16_t.sizeof
      ∧ log = (([1, 2, 3] : List byte).take uint16_t.sizeof).map intOfByte
      ∧ value1.bytes = ([1, 2, 3] : List byte).take uint16_t.sizeof
      ∧ (I2C_readAnything bufferSource (⟨[0, 0], rfl⟩ : Value uint16_t) [1, 2, 3]).map
          (fun r => r.2.2) = some (([1, 2, 3] : List byte).drop uint16_t.sizeof) :=
  ⟨by decide,
    C8_read_consumes_sizeof_bytes (⟨[0, 0], rfl⟩ : Value uint16_t) [1, 2, 3] (by decide)⟩

/-! ## Writing, then reading -/

/-- Claim C3. Round trip: when the bytes that `I2C_writeAnything` hands to an
always-accepting sink are replayed in the same order as the source of
`I2C_readAnything` on a destination of the same type, whatever it held, the
destination ends with exactly the bytes of the written value (and both calls
return `sizeof value`). -/
theorem C3_round_trip {T : CType} (value dest : Value T) :
    ∃ sent : List byte,
      I2C_writeAnything acceptAllSink value [] = some (T.sizeof, sent)
      ∧ I2C_readAnything bufferSource dest sent = some (T.sizeof, value, []) := by
  refine ⟨value.bytes, ?_, ?_⟩
  · rw [writeAnything_eq, acceptAllSink_writeAll]
    rfl
  · have hN := bufferSource_readN T.sizeof value.bytes (by rw [value.length_eq])
    have ht : value.bytes.take T.sizeof = value.bytes := by
      apply List.take_of_length_le
      rw [value.length_eq]
    have hd : value.bytes.drop T.sizeof = [] := by
      apply List.drop_eq_nil_of_le
      rw [value.length_eq]
    rw [readAnything_eq]
    have hv : (⟨(bufferSource.readN T.sizeof value.bytes).1.map byteOfInt,
        by simp [readN_length]⟩ : Value T) = value := by
      apply Value.ext_bytes
      exact (bufferSource_readN_bytes T.sizeof value.bytes (by rw [value.length_eq])).trans ht
    rw [hv, hN, hd]

/-- Claim C9. For the four-byte integer 0x01020304 in little-endian layout,
`I2C_writeAnything` hands the sink the bytes 0x04, 0x03, 0x02, 0x01 in that
order and returns 4; `I2C_readAnything` on a zeroed four-byte destination, from
a source yielding those four bytes in that order, returns 4 and leaves the
destination equal to 0x01020304. -/
theorem C9_example_01020304 {σ : Type} (S : Sink σ) (wire : σ) :
    (I2C_writeAnything (spySink S) (bytesOfUInt32 0x01020304) (wire, WriteLog.empty)).map
        (fun r => (r.1, r.2.2.calls)) = some (4, [0x04, 0x03, 0x02, 0x01])
    ∧ (bytesOfUInt32 0).bytes = [0, 0, 0, 0]
    ∧ I2C_readAnything bufferSource (bytesOfUInt32 0) [0x04, 0x03, 0x02, 0x01]
        = some (4, bytesOfUInt32 0x01020304, [])
    ∧ uintOfBytes (bytesOfUInt32 0x01020304) = 0x01020304 := by
  refine ⟨?_, by decide, ?_, by decide⟩
  · rw [spy_writeAnything_eq]
    simp only [Option.map_some']
    decide
  · rw [readAnything_eq]
    have hN : bufferSource.readN uint32_t.sizeof [0x04, 0x03, 0x02, 0x01]
        = (([0x04, 0x03, 0x02, 0x01] : List byte).map intOfByte, []) := by
      rw [bufferSource_readN _ _ (by decide)]
      rfl
    have hv : (⟨(bufferSource.readN uint32_t.sizeof [0x04, 0x03, 0x02, 0x01]).1.map byteOfInt,
        by simp [readN_length]⟩ : Value uint32_t) = bytesOfUInt32 0x01020304 := by
      apply Value.ext_bytes
      simp only [hN, map_byteOfInt_intOfByte]
      decide
    rw [hv, hN]
    rfl

/-! ## The boundary `sizeof value == 0` -/

/-- Claim C10. When `sizeof value` is 0, the loop of `I2C_writeAnything` makes no
`Wire.write` call and returns 0, and the loop of `I2C_readAnything` makes no
`Wire.read` call, returns 0 and leaves the value and the source as they were. -/
theorem C10_zero_size {σ τ : Type} (S : Sink σ) (R : Source τ) {T : CType}
    (hT : T.sizeof = 0) (value : Value T) (wire : σ) (rx : τ) :
    I2C_writeAnything (spySink S) value (wire, WriteLog.empty)
      = some (0, (wire, WriteLog.empty))
    ∧ I2C_writeAnything S value wire = some (0, wire)
    ∧ I2C_readAnything (spySource R) value (rx, []) = some (0, value, (rx, []))
    ∧ I2C_readAnything R value rx = some (0, value, rx) := by
  have h0 : ¬ 0 < T.sizeof := by omega
  refine ⟨?_, ?_, ?_, ?_⟩
  · unfold I2C_writeAnything
    rw [I2C_writeAnything.loop, if_neg h0]
  · unfold I2C_writeAnything
    rw [I2C_writeAnything.loop, if_neg h0]
  · unfold I2C_readAnything
    rw [I2C_readAnything.loop, if_neg h0]
  · unfold I2C_readAnything
    rw [I2C_readAnything.loop, if_neg h0]

theorem C10_zero_size_witness :
    emptyType.sizeof = 0
    ∧ I2C_writeAnything (spySink acceptAllSink) (⟨[], rfl⟩ : Value emptyType)
        ([7], WriteLog.empty) = some (0, ([7], WriteLog.empty))
    ∧ I2C_writeAnything acceptAllSink (⟨[], rfl⟩ : Value emptyType) [7] = some (0, [7])
    ∧ I2C_readAnything (spySource bufferSource) (⟨[], rfl⟩ : Value emptyType) ([8, 9], [])
        = some (0, ⟨[], rfl⟩, ([8, 9], []))
    ∧ I2C_readAnything bufferSource (⟨[], rfl⟩ : Value emptyType) [8, 9]
        = some (0, ⟨[], rfl⟩, [8, 9]) :=
  ⟨rfl, C10_zero_size acceptAllSink bufferSource rfl (⟨[], rfl⟩ : Value emptyType) [7] [8, 9]⟩

end I2CAnything
